import Mathlib

/-!
Verification of the NotionPinecone pipeline (felixzhu17/Notion-Pinecone).

Shallow embedding of the repository's Python sources:
* `NotionPinecone/utils.py`: `get_env_var`, `chunk_data_sources`, `hash`,
  `hash_docs`, `format_notion_source`;
* `NotionPinecone/embedding.py`: the `Embedder` class and its splitter
  configuration;
* `NotionPinecone/pinecone.py`: credential resolution in
  `PineconeVectorStore.__init__` and `upload_in_batches`;
* `NotionPinecone/notion.py`: the extractors, the existence check and the
  upload/dedup logic.

External collaborators (the filesystem, `hashlib`, the Pinecone index, the
OpenAI embedding endpoint, `pdfplumber`, `python-docx`) are modelled as
explicit function parameters; `hashlib.sha256` is given its standard
FIPS 180-4 definition over the UTF-8 bytes of the input.
-/

namespace NotionPinecone

/-! ## UTF-8 encoding of a string (the `text.encode()` call in `utils.hash`) -/

/-- Byte sequence of one character under UTF-8, as Python's `str.encode()`
produces for each code point. -/
def utf8EncodeCharBytes (c : Char) : List Nat :=
  let n := c.toNat
  if n < 128 then [n]
  else if n < 2048 then
    [192 ||| (n >>> 6), 128 ||| (n &&& 63)]
  else if n < 65536 then
    [224 ||| (n >>> 12), 128 ||| ((n >>> 6) &&& 63), 128 ||| (n &&& 63)]
  else
    [240 ||| (n >>> 18), 128 ||| ((n >>> 12) &&& 63),
     128 ||| ((n >>> 6) &&& 63), 128 ||| (n &&& 63)]

/-- UTF-8 bytes of a whole string: Python's `text.encode()`. -/
def strBytes (s : String) : List Nat :=
  (s.data.map utf8EncodeCharBytes).flatten

/-! ## SHA-256 (the `hashlib.sha256` call), FIPS 180-4 over byte lists.
32-bit machine words are `Nat` reduced mod `2^32` at every operation. -/

/-- Truncate to a 32-bit word. -/
def w32 (x : Nat) : Nat := x % 4294967296

/-- 32-bit right rotation. -/
def rotr32 (n x : Nat) : Nat := w32 ((x >>> n) ||| (x <<< (32 - n)))

/-- 32-bit bitwise complement. -/
def not32 (x : Nat) : Nat := Nat.xor x 4294967295

/-- SHA-256 round constants. -/
def shaK : List Nat :=
  [1116352408, 1899447441, 3049323471, 3921009573, 961987163,
   1508970993, 2453635748, 2870763221, 3624381080, 310598401,
   607225278, 1426881987, 1925078388, 2162078206, 2614888103,
   3248222580, 3835390401, 4022224774, 264347078, 604807628,
   770255983, 1249150122, 1555081692, 1996064986, 2554220882,
   2821834349, 2952996808, 3210313671, 3336571891, 3584528711,
   113926993, 338241895, 666307205, 773529912, 1294757372,
   1396182291, 1695183700, 1986661051, 2177026350, 2456956037,
   2730485921, 2820302411, 3259730800, 3345764771, 3516065817,
   3600352804, 4094571909, 275423344, 430227734, 506948616,
   659060556, 883997877, 958139571, 1322822218, 1537002063,
   1747873779, 1955562222, 2024104815, 2227730452, 2361852424,
   2428436474, 2756734187, 3204031479, 3329325298]

/-- SHA-256 initial hash value. -/
def shaH0 : List Nat :=
  [1779033703, 3144134277, 1013904242, 2773480762,
   1359893119, 2600822924, 528734635, 1541459225]

/-- Padding: append `0x80`, zero bytes to 56 mod 64, then the bit length as
an 8-byte big-endian integer. -/
def shaPad (msg : List Nat) : List Nat :=
  let padLen := (119 - msg.length % 64) % 64
  let bitLen := 8 * msg.length
  msg ++ [128] ++ List.replicate padLen 0 ++
    [(bitLen >>> 56) % 256, (bitLen >>> 48) % 256, (bitLen >>> 40) % 256,
     (bitLen >>> 32) % 256, (bitLen >>> 24) % 256, (bitLen >>> 16) % 256,
     (bitLen >>> 8) % 256, bitLen % 256]

/-- Big-endian assembly of the 16 words of one 64-byte block. -/
def blockWords (b : List Nat) : List Nat :=
  (List.range 16).map fun i =>
    (b.getD (4 * i) 0) <<< 24 ||| (b.getD (4 * i + 1) 0) <<< 16 |||
    (b.getD (4 * i + 2) 0) <<< 8 ||| b.getD (4 * i + 3) 0

/-- Small sigma-0 of the message schedule. -/
def shaS0 (x : Nat) : Nat := Nat.xor (Nat.xor (rotr32 7 x) (rotr32 18 x)) (x >>> 3)

/-- Small sigma-1 of the message schedule. -/
def shaS1 (x : Nat) : Nat := Nat.xor (Nat.xor (rotr32 17 x) (rotr32 19 x)) (x >>> 10)

/-- Extend the 16 block words to the 64-entry message schedule. -/
def extendSchedule (w : List Nat) : Nat → List Nat
  | 0 => w
  | n + 1 =>
    let l := w.length
    let next := w32 (w.getD (l - 16) 0 + shaS0 (w.getD (l - 15) 0) +
      w.getD (l - 7) 0 + shaS1 (w.getD (l - 2) 0))
    extendSchedule (w ++ [next]) n

/-- One compression round; the state is the list `[a,b,c,d,e,f,g,h]`. -/
def shaRound (st : List Nat) (kw : Nat × Nat) : List Nat :=
  let a := st.getD 0 0
  let b := st.getD 1 0
  let c := st.getD 2 0
  let d := st.getD 3 0
  let e := st.getD 4 0
  let f := st.getD 5 0
  let g := st.getD 6 0
  let h := st.getD 7 0
  let bigS1 := Nat.xor (Nat.xor (rotr32 6 e) (rotr32 11 e)) (rotr32 25 e)
  let ch := Nat.xor (e &&& f) ((not32 e) &&& g)
  let temp1 := w32 (h + bigS1 + ch + kw.1 + kw.2)
  let bigS0 := Nat.xor (Nat.xor (rotr32 2 a) (rotr32 13 a)) (rotr32 22 a)
  let maj := Nat.xor (Nat.xor (a &&& b) (a &&& c)) (b &&& c)
  let temp2 := w32 (bigS0 + maj)
  [w32 (temp1 + temp2), a, b, c, w32 (d + temp1), e, f, g]

/-- Process one 64-byte block against the running hash. -/
def shaBlock (h : List Nat) (b : List Nat) : List Nat :=
  let w := extendSchedule (blockWords b) 48
  let st := (shaK.zip w).foldl shaRound h
  (h.zip st).map fun p => w32 (p.1 + p.2)

/-- Split a list into consecutive runs of (at most) `bsz` elements.  Written
with `xs.drop (bsz - 1)` so the recursion is length-decreasing for every
`bsz`; for `0 < bsz` this agrees with taking `bsz` then dropping `bsz`. -/
def chunksRec (bsz : Nat) : List α → List (List α)
  | [] => []
  | x :: xs => (x :: xs).take bsz :: chunksRec bsz (xs.drop (bsz - 1))
termination_by l => l.length
decreasing_by
  simp only [List.length_drop, List.length_cons]
  omega

/-- Digest words to bytes, big-endian. -/
def wordsToBytes (ws : List Nat) : List Nat :=
  (ws.map fun x => [(x >>> 24) % 256, (x >>> 16) % 256, (x >>> 8) % 256, x % 256]).flatten

/-- SHA-256 digest (32 bytes) of a byte list. -/
def sha256 (msg : List Nat) : List Nat :=
  let blocks := chunksRec 64 (shaPad msg)
  wordsToBytes (blocks.foldl shaBlock shaH0)

/-- Lowercase hex character of a value below 16. -/
def hexChar (n : Nat) : Char :=
  if n < 10 then Char.ofNat (48 + n) else Char.ofNat (87 + n)

/-- Lowercase hex string of a byte list: Python's `.hexdigest()`. -/
def toHex (bs : List Nat) : String :=
  String.mk ((bs.map fun b => [hexChar (b / 16), hexChar (b % 16)]).flatten)

/-- `utils.hash`: SHA-256 hex digest of the UTF-8 encoding of `text`.
Source: `hashlib.sha256(text.encode()).hexdigest()`. -/
def hash (text : String) : String :=
  toHex (sha256 (strBytes text))

/-- `utils.hash_docs`: `[hash(doc) for doc in docs]`. -/
def hash_docs (docs : List String) : List String :=
  docs.map hash

/-! ## `utils.format_notion_source`

Python:
```
string = string.replace("\\", "/")
cleaned_string = re.sub(r"([a-f0-9]{32}/|[a-f0-9]{32}\.md| [a-f0-9]{32} )", "", string)
cleaned_string = cleaned_string.rstrip()
```
The regex has three literal-shaped alternatives; `re.sub` removes the
leftmost non-overlapping matches, trying the alternatives left to right at
each position.  That scan is written out explicitly below. -/

/-- Whitespace characters stripped by Python's `str.rstrip()` (ASCII set). -/
def isPySpace (c : Char) : Bool :=
  c = ' ' || c = '\t' || c = '\n' || c = '\r' || c = '\x0b' || c = '\x0c'

/-- `str.rstrip()`: drop trailing whitespace. -/
def rstrip (s : String) : String :=
  String.mk (s.data.reverse.dropWhile isPySpace).reverse

/-- A character of the regex class `[a-f0-9]`. -/
def isHexLower (c : Char) : Bool :=
  ('a' ≤ c && c ≤ 'f') || ('0' ≤ c && c ≤ '9')

/-- Exactly 32 characters, all in `[a-f0-9]`. -/
def hex32 (cs : List Char) : Bool :=
  cs.length = 32 && cs.all isHexLower

/-- The alternative `[a-f0-9]{32}/` matches at the head (consumes 33 chars). -/
def matchHexSlash (cs : List Char) : Bool :=
  hex32 (cs.take 32) && (cs.drop 32).take 1 = ['/']

/-- The alternative `[a-f0-9]{32}\.md` matches at the head (consumes 35 chars). -/
def matchHexMd (cs : List Char) : Bool :=
  hex32 (cs.take 32) && (cs.drop 32).take 3 = ['.', 'm', 'd']

/-- The alternative <code> [a-f0-9]{32} </code> — a space, 32 hex characters
and a space — matches at the head (consumes 34 chars). -/
def matchSpaceHexSpace (cs : List Char) : Bool :=
  cs.take 1 = [' '] && hex32 ((cs.drop 1).take 32) && (cs.drop 33).take 1 = [' ']

theorem matchHexSlash_length {cs : List Char} (h : matchHexSlash cs = true) :
    33 ≤ cs.length := by
  simp only [matchHexSlash, hex32, Bool.and_eq_true, decide_eq_true_eq] at h
  have h1 := h.1.1
  have h2 : ((cs.drop 32).take 1).length = 1 := by rw [h.2]; rfl
  simp only [List.length_take, List.length_drop] at h1 h2
  omega

theorem matchHexMd_length {cs : List Char} (h : matchHexMd cs = true) :
    35 ≤ cs.length := by
  simp only [matchHexMd, hex32, Bool.and_eq_true, decide_eq_true_eq] at h
  have h1 := h.1.1
  have h2 : ((cs.drop 32).take 3).length = 3 := by rw [h.2]; rfl
  simp only [List.length_take, List.length_drop] at h1 h2
  omega

theorem matchSpaceHexSpace_length {cs : List Char} (h : matchSpaceHexSpace cs = true) :
    34 ≤ cs.length := by
  simp only [matchSpaceHexSpace, hex32, Bool.and_eq_true, decide_eq_true_eq] at h
  have h1 := h.1.2.1
  have h2 : ((cs.drop 33).take 1).length = 1 := by rw [h.2]; rfl
  simp only [List.length_take, List.length_drop] at h1 h2
  omega

/-- The `re.sub(..., "", ...)` scan: at each position try the three
alternatives in order; on a match drop the matched characters, otherwise
keep one character and continue.  Structural recursion on a fuel counter
(each step consumes at least one character, so `cs.length` fuel suffices
and the fuel-exhausted branch is unreachable from `removeUuidMatches`). -/
def removeUuidAux : Nat → List Char → List Char
  | 0, _ => []
  | _ + 1, [] => []
  | fuel + 1, c :: rest =>
    if matchHexSlash (c :: rest) then removeUuidAux fuel ((c :: rest).drop 33)
    else if matchHexMd (c :: rest) then removeUuidAux fuel ((c :: rest).drop 35)
    else if matchSpaceHexSpace (c :: rest) then removeUuidAux fuel ((c :: rest).drop 34)
    else c :: removeUuidAux fuel rest

/-- The `re.sub` scan at full fuel. -/
def removeUuidMatches (cs : List Char) : List Char :=
  removeUuidAux cs.length cs

/-- `utils.format_notion_source`. -/
def format_notion_source (s : String) : String :=
  let replaced := s.data.map fun c => if c = '\\' then '/' else c
  rstrip (String.mk (removeUuidMatches replaced))

/-! ## `utils.get_env_var` and `utils.chunk_data_sources` -/

/-- Python truthiness of an optional string: `None` and `""` are falsy. -/
def truthy : Option String → Bool
  | none => false
  | some s => !(s == "")

/-- `utils.get_env_var`: `var = var or os.getenv(key)`, then raise
`EnvironmentError` if the result is `None`.  The process environment is the
explicit parameter `env`. -/
def get_env_var (env : String → Option String) (key : String) (var : Option String) :
    Except String String :=
  match (if truthy var then var else env key) with
  | none => .error ("Environment variable " ++ key ++ " is not set")
  | some v => .ok v

/-- One metadata record `{"text": ..., "source": ...}`. -/
structure Meta where
  text : String
  source : String
deriving DecidableEq, Repr

/-- `utils.chunk_data_sources`: split each data item and pair every chunk
with its item's source.  Python indexes `sources[i]` while iterating over
`data`, so a `data` list longer than `sources` raises (`none` here); extra
sources are ignored. -/
def chunk_data_sources (text_split_func : String → List String) :
    List String → List String → Option (List String × List Meta)
  | [], _ => some ([], [])
  | _ :: _, [] => none
  | d :: ds, s :: ss =>
    match chunk_data_sources text_split_func ds ss with
    | none => none
    | some (docs, metadatas) =>
      some (text_split_func d ++ docs,
        ((text_split_func d).map fun c => { text := c, source := s }) ++ metadatas)

/-! ## `embedding.py`: the `Embedder` class

The tiktoken encoder reached through `tiktoken.get_encoding(self.tokenizer)`
is an external collaborator; it enters the model as the function field
`encodeFn`. -/

/-- Default overlap factor (`OVERLAP_FACTOR = 20`). -/
def OVERLAP_FACTOR : Nat := 20

/-- The `Embedder` class configuration. -/
structure Embedder where
  name : String
  tokenizer : String
  encodeFn : String → List Nat
  dimensions : Nat
  max_tokens : Nat
  overlap_factor : Nat

/-- `Embedder.encode`: delegate to the tokenizer. -/
def Embedder.encode (e : Embedder) (text : String) : List Nat :=
  e.encodeFn text

/-- `Embedder.token_length`: `len(self.encode(text))`. -/
def Embedder.token_length (e : Embedder) (text : String) : Nat :=
  (e.encode text).length

/-- The arguments `embedding.py` passes to `RecursiveCharacterTextSplitter`. -/
structure TextSplitterConfig where
  chunk_size : Nat
  chunk_overlap : Nat
  length_function : String → Nat
  separators : List String

/-- `Embedder.text_splitter`: the splitter is configured with
`chunk_size=self.max_tokens`, `chunk_overlap=self.max_tokens // self.overlap_factor`,
`length_function=self.token_length`, `separators=["\n\n", "\n", " ", ""]`. -/
def Embedder.text_splitter (e : Embedder) : TextSplitterConfig :=
  { chunk_size := e.max_tokens
    chunk_overlap := e.max_tokens / e.overlap_factor
    length_function := e.token_length
    separators := ["\n\n", "\n", " ", ""] }

/-- Modelled from the spec: splitting a text at one separator level of the
langchain `RecursiveCharacterTextSplitter`, whose code is not part of this
repository.  The empty separator splits into single characters ("character
boundaries"); any other separator splits on its occurrences. -/
def splitPieces (sep : String) (text : String) : List String :=
  if sep = "" then text.data.map (fun c => String.mk [c]) else text.splitOn sep

/-- Modelled from the spec: the merge phase of the recursive splitter.
Pieces short enough for the token budget are greedily merged (joined by the
separator) while the running chunk stays within `chunk_size`; a piece that
alone exceeds the budget is handed to `recFn`, the splitter for the next
finer separator ("backing off to a finer separator whenever a candidate
chunk still exceeds the token budget"). -/
def processPieces (L : String → Nat) (maxTok : Nat) (recFn : String → List String)
    (sep : String) : List String → Option String → List String
  | [], none => []
  | [], some acc => [acc]
  | p :: ps, cur =>
    if L p ≤ maxTok then
      match cur with
      | none => processPieces L maxTok recFn sep ps (some p)
      | some acc =>
        if L (acc ++ sep ++ p) ≤ maxTok then
          processPieces L maxTok recFn sep ps (some (acc ++ sep ++ p))
        else
          acc :: processPieces L maxTok recFn sep ps (some p)
    else
      (match cur with | none => [] | some acc => [acc]) ++ recFn p ++
        processPieces L maxTok recFn sep ps none

/-- Modelled from the spec: the recursive splitter over the separator list
(paragraph, line, word, character boundaries in that preference order).
With no separator left the text is returned as a single chunk. -/
def splitTextRec (L : String → Nat) (maxTok : Nat) : List String → String → List String
  | [], text => [text]
  | sep :: rest, text =>
    processPieces L maxTok (fun t => splitTextRec L maxTok rest t) sep
      (splitPieces sep text) none

/-- Modelled from the spec: `split_text` of the configured splitter. -/
def TextSplitterConfig.split_text (cfg : TextSplitterConfig) (text : String) : List String :=
  splitTextRec cfg.length_function cfg.chunk_size cfg.separators text

/-- `Embedder.split_text`: `self.text_splitter.split_text(text)`. -/
def Embedder.split_text (e : Embedder) (text : String) : List String :=
  e.text_splitter.split_text text

/-! ## `pinecone.py`: `PineconeVectorStore` -/

/-- Python slice `l[s:e]` (for `s ≤ e`, clamped to the length). -/
def pySlice (s e : Nat) (l : List α) : List α :=
  (l.take e).drop s

/-- `zip` of three lists, truncating to the shortest. -/
def zip3 (a : List α) (b : List β) (c : List γ) : List (α × β × γ) :=
  a.zip (b.zip c)

/-- `len(ids) // batch_size + (len(ids) % batch_size != 0)`. -/
def num_batches (n bsz : Nat) : Nat :=
  n / bsz + (if n % bsz ≠ 0 then 1 else 0)

/-- `PineconeVectorStore.upload_in_batches`: the list of batches handed to
`self.upsert`, in loop order; batch `i` holds the zipped slices
`[i*batch_size : min((i+1)*batch_size, len(ids))]` of ids, embeddings and
metadata. -/
def upload_in_batches (ids : List String) (embeddings : List (List Int))
    (metadata : List Meta) (batch_size : Nat) :
    List (List (String × List Int × Meta)) :=
  (List.range (num_batches ids.length batch_size)).map fun i =>
    let batch_start := i * batch_size
    let batch_end := min ((i + 1) * batch_size) ids.length
    zip3 (pySlice batch_start batch_end ids)
      (pySlice batch_start batch_end embeddings)
      (pySlice batch_start batch_end metadata)

/-- The upload loop against a fallible remote `upsert`: batches are issued
in order; the first failing upsert raises, so later batches are never sent.
Returns the issued batches (the failing attempt included) and whether the
loop completed. -/
def run_upserts (upsert : List (String × List Int × Meta) → Bool) :
    List (List (String × List Int × Meta)) →
    List (List (String × List Int × Meta)) × Bool
  | [] => ([], true)
  | b :: bs =>
    if upsert b then
      let r := run_upserts upsert bs
      (b :: r.1, r.2)
    else ([b], false)

/-- The three credentials `PineconeVectorStore.__init__` resolves. -/
structure PineconeCredentials where
  openai_api_key : String
  pinecone_api_key : String
  pinecone_environment : String
deriving DecidableEq, Repr

/-- Credential resolution in `PineconeVectorStore.__init__`, in source
order; the first failing `get_env_var` raises. -/
def pinecone_resolve_credentials (env : String → Option String)
    (openai_api_key pinecone_api_key pinecone_environment : Option String) :
    Except String PineconeCredentials :=
  match get_env_var env "OPENAI_API_KEY" openai_api_key with
  | .error msg => .error msg
  | .ok o =>
    match get_env_var env "PINECONE_API_KEY" pinecone_api_key with
    | .error msg => .error msg
    | .ok p =>
      match get_env_var env "PINECONE_ENVIRONMENT" pinecone_environment with
      | .error msg => .error msg
      | .ok e => .ok { openai_api_key := o, pinecone_api_key := p, pinecone_environment := e }

/-- The network calls `__init__` performs, all after credential resolution:
`pinecone.init`, then the two base-class constructors that connect to the
index. -/
def pinecone_network_calls : List String :=
  ["pinecone.init", "pinecone.GRPCIndex.__init__", "Pinecone.__init__"]

/-- `PineconeVectorStore.__init__`: resolve credentials, then perform the
network calls; a missing credential raises before any network call. -/
def PineconeVectorStore_init (env : String → Option String)
    (openai_api_key pinecone_api_key pinecone_environment : Option String) :
    Except String (PineconeCredentials × List String) :=
  match pinecone_resolve_credentials env openai_api_key pinecone_api_key pinecone_environment with
  | .error msg => .error msg
  | .ok c => .ok (c, pinecone_network_calls)

/-- Network calls performed by a (possibly failed) construction. -/
def netCalls (r : Except String (PineconeCredentials × List String)) : List String :=
  match r with
  | .error _ => []
  | .ok pr => pr.2

/-- A credential is supplied when the explicit argument is truthy or the
environment variable is set at all. -/
def supplied (env : String → Option String) (key : String) (arg : Option String) : Bool :=
  truthy arg || (env key).isSome

/-! ## `notion.py`: `NotionPinecone` -/

/-- One similarity query against the Pinecone index. -/
structure QueryCall where
  vector : List Int
  top_k : Nat
  filter_source : String
deriving DecidableEq, Repr

/-- `NotionPinecone._check_notion_page_in_db`: one query with the all-zero
vector `[0] * self.embedder.dimensions`, `top_k=1` and the metadata filter
`{"source": notion_page}`; true iff `["matches"]` is non-empty.  The second
component records the issued query calls.  The index is the external
parameter `db`, returning the match list of a call. -/
def check_notion_page_in_db (db : QueryCall → List String) (dims : Nat)
    (notion_page : String) : Bool × List QueryCall :=
  let call : QueryCall :=
    { vector := List.replicate dims 0, top_k := 1, filter_source := notion_page }
  (decide ((db call).length > 0), [call])

/-- `NotionPinecone.get_unique_notion_pages`:
`list(set([i["source"] for i in self.metadata]))`, modelled as deduplication
(the Python set fixes no order; only membership is ever used). -/
def get_unique_notion_pages (metadata : List Meta) : List String :=
  (metadata.map Meta.source).dedup

/-- The in-memory lists `NotionPinecone.__init__` builds:
`self.ids`, `self.docs`, `self.metadata`. -/
structure NotionData where
  ids : List String
  docs : List String
  metadata : List Meta

/-- `NotionPinecone._filter_vectors_not_in_database`: the unique pages whose
existence check fails, then the `(id, doc, meta)` triples whose source is
among them (the empty case returns three empty lists, as the Python
`else` branch does). -/
def filter_vectors_not_in_database (db : QueryCall → List String) (dims : Nat)
    (nd : NotionData) : List String × List String × List Meta :=
  let page_does_not_exist_in_db :=
    (get_unique_notion_pages nd.metadata).filter
      fun p => !(check_notion_page_in_db db dims p).1
  let filtered :=
    (zip3 nd.ids nd.docs nd.metadata).filter
      fun t => page_does_not_exist_in_db.contains t.2.2.source
  (filtered.map fun t => t.1, filtered.map fun t => t.2.1, filtered.map fun t => t.2.2)

/-- Observable effect of `NotionPinecone.upload_notion_vectors`: how many
`embed_documents` calls were made and which upsert batches were issued. -/
structure UploadResult where
  embed_calls : Nat
  upserts : List (List (String × List Int × Meta))
deriving DecidableEq, Repr

/-- `NotionPinecone.upload_notion_vectors`: filter, and if nothing is
missing return with no embedding call and no upsert; otherwise embed the
missing docs (one `embed_documents` call) and upsert them in batches of
100.  `embed_one` is the external embedding of a single document
(`embed_documents` maps it over the list). -/
def upload_notion_vectors (db : QueryCall → List String) (dims : Nat)
    (embed_one : String → List Int) (nd : NotionData) : UploadResult :=
  let r := filter_vectors_not_in_database db dims nd
  if r.1.length = 0 then
    { embed_calls := 0, upserts := [] }
  else
    { embed_calls := 1, upserts := upload_in_batches r.1 (r.2.1.map embed_one) r.2.2 100 }

/-- `NotionPinecone.extract_md`: read each path; a reader failure
(`UnicodeDecodeError`, here `none`) skips the file. -/
def extract_md (read_file : String → Option String) :
    List String → List String × List String
  | [] => ([], [])
  | p :: ps =>
    let rest := extract_md read_file ps
    match read_file p with
    | some content => (content :: rest.1, format_notion_source p :: rest.2)
    | none => rest

/-- `NotionPinecone.extract_pdf`: concatenate the per-page texts of each
readable PDF; any exception while opening or reading skips the file. -/
def extract_pdf (open_pdf : String → Option (List String)) :
    List String → List String × List String
  | [] => ([], [])
  | p :: ps =>
    let rest := extract_pdf open_pdf ps
    match open_pdf p with
    | some pages => (String.join pages :: rest.1, format_notion_source p :: rest.2)
    | none => rest

/-- `NotionPinecone.extract_doc`: join the paragraph texts of each readable
Word document with spaces; any exception skips the file. -/
def extract_doc (open_doc : String → Option (List String)) :
    List String → List String × List String
  | [] => ([], [])
  | p :: ps =>
    let rest := extract_doc open_doc ps
    match open_doc p with
    | some paragraphs =>
      (String.intercalate " " paragraphs :: rest.1, format_notion_source p :: rest.2)
    | none => rest

/-- The concrete path of the spec's formatting example, with
`abc123def456abc123def456abc12345` as the 32-character hexadecimal
identifier. -/
def notionExamplePath : String :=
  "C:\\Notion\\Page abc123def456abc123def456abc12345\\SubPage abc123def456abc123def456abc12345.md"

/-- `rangeSlices` is the shape of the loop body of `upload_in_batches`
specialized to a single list. -/
def rangeSlices (bsz : Nat) (l : List α) : List (List α) :=
  (List.range (num_batches l.length bsz)).map fun i =>
    pySlice (i * bsz) (min ((i + 1) * bsz) l.length) l

/-- A concrete `Embedder` for witnesses: the toy tokenizer counts one token
per character (`dimensions`, `max_tokens` and `overlap_factor` as in the
`ada_v2` factory of `embedding.py`). -/
def toyEmbedder : Embedder :=
  { name := "text-embedding-ada-002"
    tokenizer := "cl100k_base"
    encodeFn := fun s => List.replicate s.length 0
    dimensions := 1536
    max_tokens := 500
    overlap_factor := 20 }

/-! ## Helper lemmas -/

theorem extract_md_eq (read_file : String → Option String) (paths : List String) :
    extract_md read_file paths =
      (paths.filterMap read_file,
       (paths.filter fun p => (read_file p).isSome).map format_notion_source) := by
  induction paths with
  | nil => rfl
  | cons p ps ih =>
    cases h : read_file p <;> simp [extract_md, ih, h]

theorem extract_pdf_eq (open_pdf : String → Option (List String)) (paths : List String) :
    extract_pdf open_pdf paths =
      ((paths.filterMap open_pdf).map String.join,
       (paths.filter fun p => (open_pdf p).isSome).map format_notion_source) := by
  induction paths with
  | nil => rfl
  | cons p ps ih =>
    cases h : open_pdf p <;> simp [extract_pdf, ih, h]

theorem extract_doc_eq (open_doc : String → Option (List String)) (paths : List String) :
    extract_doc open_doc paths =
      ((paths.filterMap open_doc).map (String.intercalate " "),
       (paths.filter fun p => (open_doc p).isSome).map format_notion_source) := by
  induction paths with
  | nil => rfl
  | cons p ps ih =>
    cases h : open_doc p <;> simp [extract_doc, ih, h]

theorem length_filterMap_eq_length_filter (r : String → Option String) (paths : List String) :
    (paths.filterMap r).length = (paths.filter fun p => (r p).isSome).length := by
  induction paths with
  | nil => rfl
  | cons p ps ih =>
    cases h : r p <;> simp [h, ih]

/-! ## C2 -/

/-- C2: the id of a vector record is a deterministic function of the chunk
text alone — equal chunk texts yield equal hashes — and `hash_docs` maps a
list of documents to the list of their individual hashes in the same
order. -/
theorem hash_content_identity (t₁ t₂ : String) (docs : List String) (i : Nat) :
    (t₁ = t₂ → hash t₁ = hash t₂) ∧
    (hash_docs docs).length = docs.length ∧
    (hash_docs docs)[i]? = docs[i]?.map hash := by
  refine ⟨fun h => by rw [h], by simp [hash_docs], ?_⟩
  simp [hash_docs]

/-- C2 witness at concrete inputs. -/
theorem hash_content_identity_witness :
    hash "chunk" = hash "chunk" ∧ (hash_docs ["chunk"])[0]? = some (hash "chunk") :=
  ⟨(hash_content_identity "chunk" "chunk" [] 0).1 rfl,
   by have h := (hash_content_identity "chunk" "chunk" ["chunk"] 0).2.2; simpa using h⟩

/-! ## C10 -/

/-- C10: `get_env_var` treats a falsy explicit argument (`None` or `""`) as
absent: it falls through to the environment variable, returning its value
when set and raising `EnvironmentError` when not. -/
theorem get_env_var_falsy_coalesces (env : String → Option String) (key : String)
    (var : Option String) :
    (truthy var = false ↔ var = none ∨ var = some "") ∧
    (truthy var = false →
      get_env_var env key var =
        match env key with
        | some v => .ok v
        | none => .error ("Environment variable " ++ key ++ " is not set")) := by
  constructor
  · cases var with
    | none => simp [truthy]
    | some s => simp [truthy]
  · intro h
    cases hk : env key <;> simp [get_env_var, h, hk]

/-- C10 witness: an explicit empty string falls through to the environment
in both directions (set and unset). -/
theorem get_env_var_falsy_coalesces_witness :
    truthy (some "") = false ∧
    get_env_var (fun k => if k = "K" then some "v" else none) "K" (some "") = .ok "v" ∧
    get_env_var (fun _ => none) "K" (some "") =
      .error "Environment variable K is not set" := by
  refine ⟨by decide, ?_, ?_⟩
  · have h := (get_env_var_falsy_coalesces (fun k => if k = "K" then some "v" else none)
      "K" (some "")).2 (by decide)
    simpa using h
  · have h := (get_env_var_falsy_coalesces (fun _ => none) "K" (some "")).2 (by decide)
    simpa using h

/-! ## C5 -/

/-- C5: the existence check issues exactly one similarity query, with the
all-zero vector of the embedder's dimensionality, `top_k = 1` and a
source-equality metadata filter, and returns true iff the query result has
at least one match. -/
theorem check_notion_page_query_semantics (db : QueryCall → List String) (dims : Nat)
    (page : String) :
    (check_notion_page_in_db db dims page).2 =
      [{ vector := List.replicate dims 0, top_k := 1, filter_source := page }] ∧
    (List.replicate dims (0 : Int)).length = dims ∧
    (List.replicate dims (0 : Int)).all (fun x => x = 0) = true ∧
    ((check_notion_page_in_db db dims page).1 = true ↔
      db { vector := List.replicate dims 0, top_k := 1, filter_source := page } ≠ []) := by
  refine ⟨rfl, by simp, by simp, ?_⟩
  simp [check_notion_page_in_db, List.length_pos]

/-- C5 witness at a concrete index function. -/
theorem check_notion_page_query_semantics_witness :
    ((check_notion_page_in_db (fun c => if c.filter_source = "notes" then ["m1"] else [])
        3 "notes").1 = true ↔
      (fun (c : QueryCall) => if c.filter_source = "notes" then ["m1"] else [])
        { vector := List.replicate 3 0, top_k := 1, filter_source := "notes" } ≠ []) :=
  (check_notion_page_query_semantics
    (fun c => if c.filter_source = "notes" then ["m1"] else []) 3 "notes").2.2.2

/-! ## C7 -/

/-- C7: each extractor skips files whose reader raises and returns
text/source entries for exactly the files read successfully, in order; in
particular one corrupt file next to one valid file yields data only for the
valid file. -/
theorem extract_skip_on_error (read_file : String → Option String)
    (open_pdf open_doc : String → Option (List String)) (paths : List String) :
    extract_md read_file paths =
      (paths.filterMap read_file,
       (paths.filter fun p => (read_file p).isSome).map format_notion_source) ∧
    extract_pdf open_pdf paths =
      ((paths.filterMap open_pdf).map String.join,
       (paths.filter fun p => (open_pdf p).isSome).map format_notion_source) ∧
    extract_doc open_doc paths =
      ((paths.filterMap open_doc).map (String.intercalate " "),
       (paths.filter fun p => (open_doc p).isSome).map format_notion_source) ∧
    (extract_md read_file paths).1.length = (extract_md read_file paths).2.length ∧
    (∀ p₁ p₂ c, read_file p₁ = none → read_file p₂ = some c →
      extract_md read_file [p₁, p₂] = ([c], [format_notion_source p₂])) := by
  refine ⟨extract_md_eq read_file paths, extract_pdf_eq open_pdf paths,
    extract_doc_eq open_doc paths, ?_, ?_⟩
  · rw [extract_md_eq]
    simp [length_filterMap_eq_length_filter]
  · intro p₁ p₂ c h₁ h₂
    simp [extract_md, h₁, h₂]

/-- C7 witness: a directory with one unreadable and one valid file. -/
theorem extract_skip_on_error_witness :
    (fun p => if p = "good.md" then some "content" else none) "bad.md" = none ∧
    extract_md (fun p => if p = "good.md" then some "content" else none)
      ["bad.md", "good.md"] = (["content"], [format_notion_source "good.md"]) :=
  ⟨by decide,
   (extract_skip_on_error (fun p => if p = "good.md" then some "content" else none)
      (fun _ => none) (fun _ => none) []).2.2.2.2 "bad.md" "good.md" "content"
      (by decide) (by decide)⟩

/-! ## C9 -/

theorem chunk_data_sources_eq (split : String → List String)
    (data sources : List String) (h : data.length = sources.length) :
    chunk_data_sources split data sources =
      some (data.flatMap split,
        (data.zip sources).flatMap fun ds =>
          (split ds.1).map fun c => { text := c, source := ds.2 }) := by
  induction data generalizing sources with
  | nil => simp [chunk_data_sources]
  | cons d ds ih =>
    cases sources with
    | nil => simp at h
    | cons s ss =>
      simp only [List.length_cons, Nat.add_right_cancel_iff] at h
      simp [chunk_data_sources, ih ss h]

theorem map_text_flatMap_zip (split : String → List String)
    (data sources : List String) (h : data.length = sources.length) :
    ((data.zip sources).flatMap fun ds =>
        (split ds.1).map fun c => ({ text := c, source := ds.2 } : Meta)).map Meta.text =
      data.flatMap split := by
  induction data generalizing sources with
  | nil => simp
  | cons d ds ih =>
    cases sources with
    | nil => simp at h
    | cons s ss =>
      simp only [List.length_cons, Nat.add_right_cancel_iff] at h
      simp [ih ss h, List.map_map, Function.comp_def]

/-- C9: `chunk_data_sources` on equal-length inputs succeeds and aligns
chunks with metadata: the chunks are the per-document splits in document
order, each metadata record carries the chunk text and the source of the
document it was split from, and `hash_docs` preserves the length, so the
i-th id, chunk and metadata always describe the same chunk. -/
theorem chunk_metadata_alignment (split : String → List String)
    (data sources : List String) (h : data.length = sources.length) :
    chunk_data_sources split data sources =
      some (data.flatMap split,
        (data.zip sources).flatMap fun ds =>
          (split ds.1).map fun c => { text := c, source := ds.2 }) ∧
    ((data.zip sources).flatMap fun ds =>
        (split ds.1).map fun c => ({ text := c, source := ds.2 } : Meta)).map Meta.text =
      data.flatMap split ∧
    ((data.zip sources).flatMap fun ds =>
        (split ds.1).map fun c => ({ text := c, source := ds.2 } : Meta)).length =
      (data.flatMap split).length ∧
    (hash_docs (data.flatMap split)).length = (data.flatMap split).length := by
  have halign := map_text_flatMap_zip split data sources h
  refine ⟨chunk_data_sources_eq split data sources h, halign, ?_, by simp [hash_docs]⟩
  have := congrArg List.length halign
  simpa using this

/-- C9 witness at a concrete splitter and document list. -/
theorem chunk_metadata_alignment_witness :
    (["doc"] : List String).length = (["src"] : List String).length ∧
    chunk_data_sources (fun s => [s, s]) ["doc"] ["src"] =
      some (["doc", "doc"],
        [{ text := "doc", source := "src" }, { text := "doc", source := "src" }]) := by
  refine ⟨rfl, ?_⟩
  have h := (chunk_metadata_alignment (fun s => [s, s]) ["doc"] ["src"] rfl).1
  simpa using h

/-! ## C3 (corrected) -/

/-- C3 counterexample: the claimed output `Notion/Page /SubPage` is not the
value `format_notion_source` produces on the spec's example input. -/
theorem format_notion_source_example_counter :
    format_notion_source notionExamplePath ≠ "Notion/Page /SubPage" := by decide

theorem mem_removeUuidAux (fuel : Nat) :
    ∀ (cs : List Char) (c : Char), c ∈ removeUuidAux fuel cs → c ∈ cs := by
  induction fuel with
  | zero => intro cs c h; simp [removeUuidAux] at h
  | succ n ih =>
    intro cs c h
    match cs with
    | [] => simp [removeUuidAux] at h
    | x :: rest =>
      simp only [removeUuidAux] at h
      split_ifs at h with h1 h2 h3
      · exact List.drop_subset _ _ (ih _ _ h)
      · exact List.drop_subset _ _ (ih _ _ h)
      · exact List.drop_subset _ _ (ih _ _ h)
      · rcases List.mem_cons.mp h with rfl | hm
        · exact List.mem_cons_self _ _
        · exact List.mem_cons_of_mem _ (ih _ _ hm)

theorem head?_dropWhile_not (p : Char → Bool) (l : List Char) :
    (l.dropWhile p).head?.all (fun c => !p c) = true := by
  induction l with
  | nil => rfl
  | cons c rest ih =>
    by_cases h : p c = true
    · simpa [List.dropWhile_cons, h] using ih
    · simp [List.dropWhile_cons, h]

theorem rstrip_last_not_space (s : String) :
    (rstrip s).data.getLast?.all (fun c => !isPySpace c) = true := by
  simp only [rstrip]
  rw [List.getLast?_reverse]
  exact head?_dropWhile_not isPySpace s.data.reverse

theorem rstrip_subset (s : String) : (rstrip s).data ⊆ s.data := by
  simp only [rstrip]
  intro c hc
  rw [List.mem_reverse] at hc
  have h1 : c ∈ s.data.reverse := (List.dropWhile_sublist isPySpace).subset hc
  exact List.mem_reverse.mp h1

/-- C3 amended: `format_notion_source` normalizes backslashes to forward
slashes (no backslash survives), strips embedded 32-character hexadecimal
identifier segments and trailing whitespace, and the spec's example input
formats to `C:/Notion/Page SubPage` (the identifier is removed together
with its trailing slash, and the drive prefix is kept). -/
theorem format_notion_source_normalized (s : String) :
    ((format_notion_source s).data.all fun c => c ≠ '\\') = true ∧
    ((format_notion_source s).data.getLast?.all fun c => !isPySpace c) = true ∧
    format_notion_source notionExamplePath = "C:/Notion/Page SubPage" := by
  refine ⟨?_, rstrip_last_not_space _, by decide⟩
  rw [List.all_eq_true]
  intro c hc
  simp only [decide_eq_true_eq]
  simp only [format_notion_source] at hc
  have h1 := rstrip_subset _ hc
  have h2 := mem_removeUuidAux _ _ _ h1
  obtain ⟨c', _, hc'⟩ := List.mem_map.mp h2
  subst hc'
  by_cases h : c' = '\\' <;> simp [h]

/-- C3 witness for the amended statement. -/
theorem format_notion_source_normalized_witness :
    ((format_notion_source "C:\\a ").data.all fun c => c ≠ '\\') = true ∧
    format_notion_source notionExamplePath = "C:/Notion/Page SubPage" :=
  ⟨(format_notion_source_normalized "C:\\a ").1,
   (format_notion_source_normalized "x").2.2⟩

/-! ## C6 -/

theorem get_env_var_ok_iff (env : String → Option String) (key : String) (var : Option String) :
    (get_env_var env key var).isOk = true ↔ supplied env key var = true := by
  cases var with
  | none => cases hk : env key <;> simp [get_env_var, supplied, truthy, hk, Except.isOk, Except.toBool]
  | some s =>
    by_cases hs : s = ""
    · subst hs
      cases hk : env key <;> simp [get_env_var, supplied, truthy, hk, Except.isOk, Except.toBool]
    · simp [get_env_var, supplied, truthy, hs, Except.isOk, Except.toBool]

theorem get_env_var_error_of_not_supplied (env : String → Option String) (key : String)
    (var : Option String) (h : supplied env key var = false) :
    get_env_var env key var = .error ("Environment variable " ++ key ++ " is not set") := by
  simp only [supplied, Bool.or_eq_false_iff] at h
  obtain ⟨h1, h2⟩ := h
  cases hk : env key with
  | none => simp [get_env_var, h1, hk]
  | some v => rw [hk] at h2; simp at h2

theorem get_env_var_ok_of_supplied (env : String → Option String) (key : String)
    (var : Option String) (h : supplied env key var = true) :
    ∃ v, get_env_var env key var = .ok v := by
  have hk := (get_env_var_ok_iff env key var).mpr h
  cases hg : get_env_var env key var with
  | ok v => exact ⟨v, rfl⟩
  | error msg => rw [hg] at hk; simp [Except.isOk, Except.toBool] at hk

/-- C6: construction raises an `EnvironmentError` naming the first missing
required credential before any network call is made, and credential
resolution succeeds iff every credential is supplied by an explicit
argument or by its environment variable. -/
theorem init_missing_credential_hard_stop (env : String → Option String)
    (o p e : Option String) :
    ((PineconeVectorStore_init env o p e).isOk = true ↔
      (supplied env "OPENAI_API_KEY" o = true ∧ supplied env "PINECONE_API_KEY" p = true ∧
        supplied env "PINECONE_ENVIRONMENT" e = true)) ∧
    (supplied env "OPENAI_API_KEY" o = false →
      PineconeVectorStore_init env o p e =
        .error "Environment variable OPENAI_API_KEY is not set") ∧
    (supplied env "OPENAI_API_KEY" o = true → supplied env "PINECONE_API_KEY" p = false →
      PineconeVectorStore_init env o p e =
        .error "Environment variable PINECONE_API_KEY is not set") ∧
    (supplied env "OPENAI_API_KEY" o = true → supplied env "PINECONE_API_KEY" p = true →
      supplied env "PINECONE_ENVIRONMENT" e = false →
      PineconeVectorStore_init env o p e =
        .error "Environment variable PINECONE_ENVIRONMENT is not set") ∧
    (∀ msg, PineconeVectorStore_init env o p e = .error msg →
      netCalls (PineconeVectorStore_init env o p e) = []) := by
  cases ho : supplied env "OPENAI_API_KEY" o with
  | false =>
    have herr := get_env_var_error_of_not_supplied env "OPENAI_API_KEY" o ho
    have hinit : PineconeVectorStore_init env o p e =
        .error "Environment variable OPENAI_API_KEY is not set" := by
      simp only [PineconeVectorStore_init, pinecone_resolve_credentials, herr]
      rfl
    refine ⟨by simp [hinit, Except.isOk, Except.toBool], fun _ => hinit, ?_, ?_, ?_⟩
    · intro h1 _; simp at h1
    · intro h1 _ _; simp at h1
    · intro msg _; rw [hinit]; rfl
  | true =>
    obtain ⟨vo, hvo⟩ := get_env_var_ok_of_supplied env "OPENAI_API_KEY" o ho
    cases hp : supplied env "PINECONE_API_KEY" p with
    | false =>
      have herr := get_env_var_error_of_not_supplied env "PINECONE_API_KEY" p hp
      have hinit : PineconeVectorStore_init env o p e =
          .error "Environment variable PINECONE_API_KEY is not set" := by
        simp only [PineconeVectorStore_init, pinecone_resolve_credentials, hvo, herr]
        rfl
      refine ⟨by simp [hinit, Except.isOk, Except.toBool, hp], ?_, fun _ _ => hinit, ?_, ?_⟩
      · intro h1; simp at h1
      · intro _ h2 _; simp at h2
      · intro msg _; rw [hinit]; rfl
    | true =>
      obtain ⟨vp, hvp⟩ := get_env_var_ok_of_supplied env "PINECONE_API_KEY" p hp
      cases he : supplied env "PINECONE_ENVIRONMENT" e with
      | false =>
        have herr := get_env_var_error_of_not_supplied env "PINECONE_ENVIRONMENT" e he
        have hinit : PineconeVectorStore_init env o p e =
            .error "Environment variable PINECONE_ENVIRONMENT is not set" := by
          simp only [PineconeVectorStore_init, pinecone_resolve_credentials, hvo, hvp, herr]
          rfl
        refine ⟨by simp [hinit, Except.isOk, Except.toBool, he], ?_, ?_, fun _ _ _ => hinit, ?_⟩
        · intro h1; simp at h1
        · intro _ h2; simp at h2
        · intro msg _; rw [hinit]; rfl
      | true =>
        obtain ⟨ve, hve⟩ := get_env_var_ok_of_supplied env "PINECONE_ENVIRONMENT" e he
        have hinit : PineconeVectorStore_init env o p e =
            .ok (⟨vo, vp, ve⟩, pinecone_network_calls) := by
          simp only [PineconeVectorStore_init, pinecone_resolve_credentials, hvo, hvp, hve]
        refine ⟨by simp [hinit, Except.isOk, Except.toBool, ho, hp, he], ?_, ?_, ?_, ?_⟩
        · intro h1; simp at h1
        · intro _ h2; simp at h2
        · intro _ _ h3; simp at h3
        · intro msg hm; rw [hinit] at hm; simp at hm

/-- C6 witness: explicit OpenAI and Pinecone keys but no environment value
for `PINECONE_ENVIRONMENT` make construction fail with the error naming
that variable. -/
theorem init_missing_credential_hard_stop_witness :
    supplied (fun _ => none) "OPENAI_API_KEY" (some "sk") = true ∧
    supplied (fun _ => none) "PINECONE_API_KEY" (some "pk") = true ∧
    supplied (fun _ => none) "PINECONE_ENVIRONMENT" (none : Option String) = false ∧
    PineconeVectorStore_init (fun _ => none) (some "sk") (some "pk") none =
      .error "Environment variable PINECONE_ENVIRONMENT is not set" :=
  ⟨by decide, by decide, by decide,
   (init_missing_credential_hard_stop (fun _ => none) (some "sk") (some "pk")
      none).2.2.2.1 (by decide) (by decide) (by decide)⟩

/-! ## C4 -/

theorem take_zip' (a : List α) (b : List β) (n : Nat) :
    (a.zip b).take n = (a.take n).zip (b.take n) := by
  induction a generalizing b n with
  | nil => simp
  | cons x xs ih =>
    cases b with
    | nil => simp
    | cons y ys =>
      cases n with
      | zero => simp
      | succ m => simp [List.zip_cons_cons, List.take_succ_cons, ih]

theorem drop_zip' (a : List α) (b : List β) (n : Nat) :
    (a.zip b).drop n = (a.drop n).zip (b.drop n) := by
  induction a generalizing b n with
  | nil => simp
  | cons x xs ih =>
    cases b with
    | nil => simp
    | cons y ys =>
      cases n with
      | zero => simp
      | succ m => simp [List.zip_cons_cons, List.drop_succ_cons, ih]

theorem pySlice_zip3 (s e : Nat) (a : List α) (b : List β) (c : List γ) :
    pySlice s e (zip3 a b c) = zip3 (pySlice s e a) (pySlice s e b) (pySlice s e c) := by
  simp [pySlice, zip3, take_zip', drop_zip']

theorem upload_in_batches_eq_rangeSlices (ids : List String) (em : List (List Int))
    (md : List Meta) (bsz : Nat) (h1 : em.length = ids.length) (h2 : md.length = ids.length) :
    upload_in_batches ids em md bsz = rangeSlices bsz (zip3 ids em md) := by
  have hz : (zip3 ids em md).length = ids.length := by
    simp [zip3, List.length_zip, h1, h2]
  simp only [upload_in_batches, rangeSlices, hz]
  congr 1
  funext i
  rw [pySlice_zip3]

theorem chunksRec_cons (bsz : Nat) (hb : 0 < bsz) (x : α) (xs : List α) :
    chunksRec bsz (x :: xs) = (x :: xs).take bsz :: chunksRec bsz ((x :: xs).drop bsz) := by
  obtain ⟨m, rfl⟩ := Nat.exists_eq_succ_of_ne_zero (Nat.pos_iff_ne_zero.mp hb)
  simp [chunksRec, List.drop_succ_cons]

theorem num_batches_small {n bsz : Nat} (hb : 0 < bsz) (h0 : 0 < n) (hle : n ≤ bsz) :
    num_batches n bsz = 1 := by
  rcases Nat.lt_or_ge n bsz with h | h
  · have hdiv : n / bsz = 0 := Nat.div_eq_of_lt h
    have hmod : n % bsz = n := Nat.mod_eq_of_lt h
    simp [num_batches, hdiv, hmod]
    omega
  · have heq : n = bsz := le_antisymm hle h
    subst heq
    simp [num_batches, Nat.div_self hb, Nat.mod_self]

theorem num_batches_step {n bsz : Nat} (hb : 0 < bsz) (h : bsz ≤ n) :
    num_batches n bsz = num_batches (n - bsz) bsz + 1 := by
  obtain ⟨m, rfl⟩ : ∃ m, n = m + bsz := ⟨n - bsz, by omega⟩
  rw [Nat.add_sub_cancel]
  simp only [num_batches, Nat.add_div_right _ hb, Nat.add_mod_right]
  omega

theorem pySlice_succ (bsz i : Nat) (l : List α) (h : bsz ≤ l.length) :
    pySlice ((i + 1) * bsz) (min ((i + 2) * bsz) l.length) l =
      pySlice (i * bsz) (min ((i + 1) * bsz) (l.length - bsz)) (l.drop bsz) := by
  simp only [pySlice]
  conv_rhs => rw [List.take_drop, List.drop_drop]
  have e1 : (i + 1) * bsz = i * bsz + bsz := by ring
  have e2 : (i + 2) * bsz = i * bsz + bsz + bsz := by ring
  rw [e1, e2]
  generalize i * bsz = a
  have h3 : bsz + a = a + bsz := by omega
  have h4 : min (a + bsz + bsz) l.length = bsz + min (a + bsz) (l.length - bsz) := by
    omega
  rw [h3, h4]

theorem rangeSlices_eq_chunksRec (bsz : Nat) (hb : 0 < bsz) (l : List α) :
    rangeSlices bsz l = chunksRec bsz l := by
  cases l with
  | nil => simp [rangeSlices, num_batches, chunksRec]
  | cons x xs =>
    rw [chunksRec_cons bsz hb]
    by_cases hlen : (x :: xs).length ≤ bsz
    · have hn : num_batches (x :: xs).length bsz = 1 :=
        num_batches_small hb (by simp) hlen
      have hdrop : (x :: xs).drop bsz = [] := List.drop_eq_nil_of_le hlen
      rw [hdrop]
      have hr : List.range 1 = [0] := rfl
      simp only [rangeSlices, hn, hr, List.map_cons, List.map_nil, chunksRec]
      simp [pySlice, Nat.min_eq_right hlen, List.take_of_length_le hlen]
      simpa using hlen
    · push_neg at hlen
      have hle : bsz ≤ (x :: xs).length := le_of_lt hlen
      have hstep := num_batches_step (n := (x :: xs).length) hb hle
      have ih := rangeSlices_eq_chunksRec bsz hb ((x :: xs).drop bsz)
      rw [← ih]
      simp only [rangeSlices, hstep, List.range_succ_eq_map, List.map_cons, List.map_map,
        List.length_drop]
      congr 1
      · simp [pySlice, Nat.one_mul, Nat.min_eq_left hle]
      · apply List.map_congr_left
        intro i _
        simp only [Function.comp]
        have := pySlice_succ bsz i (x :: xs) hle
        simpa [Nat.succ_eq_add_one] using this
termination_by l.length
decreasing_by
  simp only [List.length_drop, List.length_cons]
  omega

theorem chunksRec_flatten (bsz : Nat) (hb : 0 < bsz) (l : List α) :
    (chunksRec bsz l).flatten = l := by
  cases l with
  | nil => simp [chunksRec]
  | cons x xs =>
    rw [chunksRec_cons bsz hb, List.flatten_cons,
      chunksRec_flatten bsz hb ((x :: xs).drop bsz)]
    exact List.take_append_drop bsz (x :: xs)
termination_by l.length
decreasing_by
  simp only [List.length_drop, List.length_cons]
  omega

theorem chunksRec_chunk_le (bsz : Nat) (l : List α) :
    ∀ ch ∈ chunksRec bsz l, ch.length ≤ bsz := by
  cases l with
  | nil => intro ch hch; simp [chunksRec] at hch
  | cons x xs =>
    intro ch hch
    simp only [chunksRec] at hch
    rcases List.mem_cons.mp hch with rfl | hm
    · simp [List.length_take]
    · exact chunksRec_chunk_le bsz (xs.drop (bsz - 1)) ch hm
termination_by l.length
decreasing_by
  simp only [List.length_drop, List.length_cons]
  omega

theorem chunksRec_tail_full (bsz : Nat) (hb : 0 < bsz) (l : List α) :
    ∀ i, i + 1 < (chunksRec bsz l).length →
      ((chunksRec bsz l)[i]?).map List.length = some bsz := by
  cases l with
  | nil => intro i hi; simp [chunksRec] at hi
  | cons x xs =>
    intro i hi
    rw [chunksRec_cons bsz hb] at hi ⊢
    cases i with
    | zero =>
      have hne : (x :: xs).drop bsz ≠ [] := by
        intro h0
        rw [h0] at hi
        simp [chunksRec] at hi
      have hlt : bsz < (x :: xs).length := by
        by_contra hc
        exact hne (List.drop_eq_nil_of_le (by omega))
      have hmin : min bsz (x :: xs).length = bsz := by
        simp only [List.length_cons] at hlt ⊢
        omega
      simp [List.length_take, hmin]
      simp only [List.length_cons] at hlt
      omega
    | succ i' =>
      have hi' : i' + 1 < (chunksRec bsz ((x :: xs).drop bsz)).length := by
        simpa using hi
      have := chunksRec_tail_full bsz hb ((x :: xs).drop bsz) i' hi'
      simpa [List.getElem?_cons_succ] using this
termination_by l.length
decreasing_by
  simp only [List.length_drop, List.length_cons]
  omega

theorem run_upserts_first_failure (up : List (String × List Int × Meta) → Bool)
    (bs : List (List (String × List Int × Meta))) :
    ∀ k, k < bs.length →
      (∀ j, j < k → ∀ b, bs[j]? = some b → up b = true) →
      (∀ b, bs[k]? = some b → up b = false) →
      run_upserts up bs = (bs.take (k + 1), false) := by
  induction bs with
  | nil => intro k hk; simp at hk
  | cons b rest ih =>
    intro k hk hbefore hfail
    cases k with
    | zero =>
      have hup : up b = false := hfail b (by simp)
      simp [run_upserts, hup]
    | succ k' =>
      have hup : up b = true := hbefore 0 (Nat.succ_pos _) b (by simp)
      have ihr := ih k' (by simpa using hk)
        (fun j hj b' hb' => hbefore (j + 1) (by omega) b' (by simpa using hb'))
        (fun b' hb' => hfail b' (by simpa using hb'))
      simp [run_upserts, hup, ihr, List.take_succ_cons]

/-- C4: `upload_in_batches` partitions its input exactly: the concatenation
of the issued batches is the zipped input (nothing sent twice or skipped),
every batch has at most `batch_size` elements, every batch except possibly
the last has exactly `batch_size` elements, empty input issues no upsert,
and when the upsert of batch `k` raises, batches before `k` stay sent and
batches after `k` are never issued. -/
theorem upload_in_batches_spec (ids : List String) (em : List (List Int)) (md : List Meta)
    (bsz : Nat) (hb : 0 < bsz) (h1 : em.length = ids.length) (h2 : md.length = ids.length) :
    (upload_in_batches ids em md bsz).flatten = zip3 ids em md ∧
    (∀ b ∈ upload_in_batches ids em md bsz, b.length ≤ bsz) ∧
    (∀ i, i + 1 < (upload_in_batches ids em md bsz).length →
      ((upload_in_batches ids em md bsz)[i]?).map List.length = some bsz) ∧
    (ids = [] → upload_in_batches ids em md bsz = []) ∧
    (∀ up k, k < (upload_in_batches ids em md bsz).length →
      (∀ j, j < k → ∀ b, (upload_in_batches ids em md bsz)[j]? = some b → up b = true) →
      (∀ b, (upload_in_batches ids em md bsz)[k]? = some b → up b = false) →
      run_upserts up (upload_in_batches ids em md bsz) =
        ((upload_in_batches ids em md bsz).take (k + 1), false)) := by
  have heq : upload_in_batches ids em md bsz = chunksRec bsz (zip3 ids em md) :=
    (upload_in_batches_eq_rangeSlices ids em md bsz h1 h2).trans
      (rangeSlices_eq_chunksRec bsz hb _)
  refine ⟨?_, ?_, ?_, ?_, ?_⟩
  · rw [heq]; exact chunksRec_flatten bsz hb _
  · rw [heq]; exact chunksRec_chunk_le bsz _
  · rw [heq]; exact chunksRec_tail_full bsz hb _
  · intro h0
    subst h0
    have hz : zip3 ([] : List String) em md = [] := rfl
    rw [heq, hz]
    simp [chunksRec]
  · intro up k hk hbefore hfail
    exact run_upserts_first_failure up _ k hk hbefore hfail

/-- C4 witness: three records in batches of two give a full batch and a
short final batch whose concatenation is the input. -/
theorem upload_in_batches_spec_witness :
    (0 : Nat) < 2 ∧
    (upload_in_batches ["a", "b", "c"] [[1], [2], [3]]
        [{ text := "a", source := "s" }, { text := "b", source := "s" },
         { text := "c", source := "s" }] 2).flatten =
      zip3 ["a", "b", "c"] [[1], [2], [3]]
        [{ text := "a", source := "s" }, { text := "b", source := "s" },
         { text := "c", source := "s" }] :=
  ⟨by decide,
   (upload_in_batches_spec ["a", "b", "c"] [[1], [2], [3]]
      [{ text := "a", source := "s" }, { text := "b", source := "s" },
       { text := "c", source := "s" }] 2 (by decide) (by decide) (by decide)).1⟩

/-! ## C1 -/

theorem zip3_map_self (f : T → α) (g : T → β) (h : T → γ) (l : List T) :
    zip3 (l.map f) (l.map g) (l.map h) = l.map fun t => (f t, g t, h t) := by
  induction l with
  | nil => rfl
  | cons x xs ih =>
    simp only [zip3, List.map_cons, List.zip_cons_cons] at ih ⊢
    rw [ih]

/-- C1: if the existence check reports true for every unique source,
`upload_notion_vectors` performs zero uploads — no embedding call and no
upsert; in general the concatenation of the issued upsert batches consists
of exactly the triples whose source is among the missing sources (each
chunk sent with its id and metadata, the chunk embedded). -/
theorem upload_idempotence (db : QueryCall → List String) (dims : Nat)
    (embed_one : String → List Int) (nd : NotionData) :
    ((∀ pg ∈ get_unique_notion_pages nd.metadata,
        (check_notion_page_in_db db dims pg).1 = true) →
      upload_notion_vectors db dims embed_one nd = { embed_calls := 0, upserts := [] }) ∧
    (upload_notion_vectors db dims embed_one nd).upserts.flatten =
      ((zip3 nd.ids nd.docs nd.metadata).filter fun t =>
          ((get_unique_notion_pages nd.metadata).filter fun pg =>
            !(check_notion_page_in_db db dims pg).1).contains t.2.2.source).map
        fun t => (t.1, embed_one t.2.1, t.2.2) := by
  set missing := (get_unique_notion_pages nd.metadata).filter
    (fun pg => !(check_notion_page_in_db db dims pg).1) with hmissing
  set F := (zip3 nd.ids nd.docs nd.metadata).filter
    (fun t => missing.contains t.2.2.source) with hF
  have hfv : filter_vectors_not_in_database db dims nd =
      (F.map fun t => t.1, F.map fun t => t.2.1, F.map fun t => t.2.2) := rfl
  constructor
  · intro hall
    have hm : missing = [] := by
      rw [hmissing]
      rw [List.filter_eq_nil_iff]
      intro pg hpg
      simp [hall pg hpg]
    have hFnil : F = [] := by
      rw [hF, hm]
      simp [List.contains]
    simp [upload_notion_vectors, hfv, hFnil]
  · by_cases hFnil : F = []
    · simp [upload_notion_vectors, hfv, hFnil]
    · have hlen : (F.map fun t => t.1).length ≠ 0 := by
        simpa using fun h => hFnil (List.eq_nil_of_length_eq_zero h)
      have hm1 : ((F.map fun t => t.2.1).map embed_one).length =
          (F.map fun t => t.1).length := by simp
      have hm2 : (F.map fun t => t.2.2).length = (F.map fun t => t.1).length := by simp
      have hflat := (upload_in_batches_spec (F.map fun t => t.1)
        ((F.map fun t => t.2.1).map embed_one) (F.map fun t => t.2.2) 100
        (by omega) hm1 hm2).1
      simp only [upload_notion_vectors, hfv, if_neg hlen]
      rw [hflat]
      rw [List.map_map]
      exact zip3_map_self _ _ _ F

/-- C1 witness: a store where the one source already exists leads to zero
embedding calls and zero upserts. -/
theorem upload_idempotence_witness :
    (∀ pg ∈ get_unique_notion_pages
        (NotionData.mk ["i1"] ["d1"] [{ text := "d1", source := "s" }]).metadata,
      (check_notion_page_in_db
        (fun c => if c.filter_source = "s" then ["m"] else []) 2 pg).1 = true) ∧
    upload_notion_vectors (fun c => if c.filter_source = "s" then ["m"] else []) 2
        (fun _ => [1]) (NotionData.mk ["i1"] ["d1"] [{ text := "d1", source := "s" }]) =
      { embed_calls := 0, upserts := [] } :=
  ⟨by decide,
   (upload_idempotence (fun c => if c.filter_source = "s" then ["m"] else []) 2
      (fun _ => [1]) (NotionData.mk ["i1"] ["d1"] [{ text := "d1", source := "s" }])).1
     (by decide)⟩

/-! ## C8 -/

theorem processPieces_bound (L : String → Nat) (maxTok : Nat) (recFn : String → List String)
    (sep : String) (ps : List String) :
    ∀ (cur : Option String),
      (∀ acc, cur = some acc → L acc ≤ maxTok) →
      (∀ p ∈ ps, maxTok < L p → ∀ c ∈ recFn p, L c ≤ maxTok) →
      ∀ chunk ∈ processPieces L maxTok recFn sep ps cur, L chunk ≤ maxTok := by
  induction ps with
  | nil =>
    intro cur hcur hrec chunk hchunk
    cases cur with
    | none => simp [processPieces] at hchunk
    | some acc =>
      simp [processPieces] at hchunk
      subst hchunk
      exact hcur _ rfl
  | cons p ps ih =>
    intro cur hcur hrec chunk hchunk
    have hrec' : ∀ q ∈ ps, maxTok < L q → ∀ c ∈ recFn q, L c ≤ maxTok :=
      fun q hq => hrec q (List.mem_cons_of_mem _ hq)
    have hrechead := hrec p (List.mem_cons_self _ _)
    simp only [processPieces] at hchunk
    by_cases hp : L p ≤ maxTok
    · rw [if_pos hp] at hchunk
      cases cur with
      | none =>
        exact ih (some p) (fun a ha => by cases ha; exact hp) hrec' chunk hchunk
      | some acc =>
        dsimp only [] at hchunk
        by_cases hcand : L (acc ++ sep ++ p) ≤ maxTok
        · rw [if_pos hcand] at hchunk
          exact ih _ (fun a ha => by cases ha; exact hcand) hrec' chunk hchunk
        · rw [if_neg hcand] at hchunk
          rcases List.mem_cons.mp hchunk with rfl | hm
          · exact hcur _ rfl
          · exact ih (some p) (fun a ha => by cases ha; exact hp) hrec' chunk hm
    · rw [if_neg hp] at hchunk
      rcases List.mem_append.mp hchunk with hm | hm
      · rcases List.mem_append.mp hm with hm1 | hm2
        · cases cur with
          | none => simp at hm1
          | some acc =>
            have hce : chunk = acc := by simpa using hm1
            subst hce
            exact hcur _ rfl
        · exact hrechead (by omega) chunk hm2
      · exact ih none (by simp) hrec' chunk hm

theorem splitTextRec_bound (L : String → Nat) (maxTok : Nat)
    (hchar : ∀ c : Char, L (String.mk [c]) ≤ maxTok) :
    ∀ (seps : List String), seps.getLast? = some "" →
      ∀ (text : String), ∀ chunk ∈ splitTextRec L maxTok seps text, L chunk ≤ maxTok := by
  intro seps
  induction seps with
  | nil => intro h; simp at h
  | cons sep rest ih =>
    intro hlast text chunk hchunk
    cases rest with
    | nil =>
      have hsep : sep = "" := by simpa using hlast
      subst hsep
      simp only [splitTextRec] at hchunk
      refine processPieces_bound L maxTok _ "" (splitPieces "" text) none
        (by simp) ?_ chunk hchunk
      intro p hp hgt c hc
      exfalso
      simp only [splitPieces, if_pos rfl] at hp
      obtain ⟨ch, _, rfl⟩ := List.mem_map.mp hp
      exact absurd (hchar ch) (by omega)
    | cons sep2 rest2 =>
      have hlast2 : (sep2 :: rest2).getLast? = some "" := by
        rwa [List.getLast?_cons_cons] at hlast
      simp only [splitTextRec] at hchunk
      refine processPieces_bound L maxTok _ sep (splitPieces sep text) none
        (by simp) ?_ chunk hchunk
      intro p hp hgt c hc
      exact ih hlast2 p c hc

/-- C8: every chunk produced by `split_text` has token length at most the
configured `max_tokens` (given that no single character exceeds the budget),
and the splitter is configured with chunk size `max_tokens`, chunk overlap
`max_tokens / overlap_factor` (integer division) and the
paragraph/line/word/character separators in that preference order. -/
theorem split_text_token_bound (e : Embedder) (text : String)
    (hchar : ∀ c : Char, e.token_length (String.mk [c]) ≤ e.max_tokens) :
    (e.split_text text).all (fun chunk => e.token_length chunk ≤ e.max_tokens) = true ∧
    e.text_splitter.chunk_size = e.max_tokens ∧
    e.text_splitter.chunk_overlap = e.max_tokens / e.overlap_factor ∧
    e.text_splitter.separators = ["\n\n", "\n", " ", ""] := by
  refine ⟨?_, rfl, rfl, rfl⟩
  rw [List.all_eq_true]
  intro chunk hchunk
  simp only [decide_eq_true_eq]
  have hlast : (["\n\n", "\n", " ", ""] : List String).getLast? = some "" := rfl
  exact splitTextRec_bound e.token_length e.max_tokens hchar _ hlast text chunk hchunk

/-- C8 witness at the one-token-per-character toy embedder. -/
theorem split_text_token_bound_witness :
    (∀ c : Char, toyEmbedder.token_length (String.mk [c]) ≤ toyEmbedder.max_tokens) ∧
    (toyEmbedder.split_text "hello world").all
      (fun chunk => toyEmbedder.token_length chunk ≤ toyEmbedder.max_tokens) = true := by
  have hchar : ∀ c : Char, toyEmbedder.token_length (String.mk [c]) ≤ toyEmbedder.max_tokens := by
    intro c
    show (List.replicate (String.mk [c]).length (0 : Nat)).length ≤ 500
    rw [List.length_replicate]
    show [c].length ≤ 500
    simp only [List.length_cons, List.length_nil]
    omega
  exact ⟨hchar, (split_text_token_bound toyEmbedder "hello world" hchar).1⟩

end NotionPinecone
